import Mathlib

/-!
Verification of the staged document lifecycle manager of the clinic-management
repository: the edit-session buffer, the pending operation log with its
commit/rollback sweeps, and the cascading patient deletion flow.

Sources embedded here:
- the edit page (`src/app/(protected)/patients/edit/[id]/page.tsx`): buffer
  mutation handlers, the unsaved-changes check, `handleSave` and
  `confirmDiscard`;
- the dashboard page and `PatientDeleteDialog`: the deletion entry point and
  the shape of `DeletionOutcome`.

The `useDocumentManager` hook (owner of the pending operation log and of the
commit/rollback sweeps) and the server-side cascading deletion route are not
among the sources; only their call sites and the specification describe them.
Definitions for those parts carry a doc comment starting with
`Modelled from the spec:` and follow the specification text.

Machine numbers: JS `number` indices are modelled as `Int` (the code checks
`index < 0` explicitly); timestamps (`Date.getTime()`) as `Int` milliseconds.
-/

namespace ClinicManagement

/-- One medical history record as the edit page and the delete dialog use it:
a visit timestamp (JS `Date`, modelled as epoch milliseconds) and the optional
ordered list of attachment URLs (the TS field `document_urls` may be absent). -/
structure IHistoryRecord where
  timestamp : Int
  document_urls : Option (List String)
deriving DecidableEq, Repr

/-- The patient fields the edit page binds (`Partial<IPatient>`): `history` is
optional, matching the guards `if (!prev.history) return prev` in the source.
Database identifiers are outside the model. -/
structure IPatient where
  name : String
  HN_code : String
  ID_code : String
  lastVisit : Option Int
  history : Option (List IHistoryRecord)
deriving DecidableEq, Repr

/-- JS array read `arr[i]` with a possibly negative number index: `none`
outside bounds. -/
def listGetInt {α : Type} (l : List α) (i : Int) : Option α :=
  if 0 ≤ i then l[i.toNat]? else none

/-- Ordering used by every history sort in the edit page:
`sort((a, b) => dateB - dateA)` keeps `a` before `b` exactly when the
timestamp of `a` is at least the timestamp of `b` (newest first). -/
def newestFirst (a b : IHistoryRecord) : Prop :=
  b.timestamp ≤ a.timestamp

instance : DecidableRel newestFirst :=
  fun a b => inferInstanceAs (Decidable (b.timestamp ≤ a.timestamp))

instance : IsTotal IHistoryRecord newestFirst :=
  ⟨fun a b => Int.le_total b.timestamp a.timestamp⟩

instance : IsTrans IHistoryRecord newestFirst :=
  ⟨fun _ _ _ h1 h2 => le_trans h2 h1⟩

/-- The `[...history].sort((a, b) => dateB - dateA)` call of the edit page.
JS engines implement a stable sort with an unspecified algorithm; a stable
insertion sort models it (only sortedness of the output is used). -/
def sortHistoryDesc (h : List IHistoryRecord) : List IHistoryRecord :=
  h.insertionSort newestFirst

/-- Sortedness by timestamp descending (newest first). -/
def sortedDesc (h : List IHistoryRecord) : Prop :=
  h.Pairwise newestFirst

instance (h : List IHistoryRecord) : Decidable (sortedDesc h) :=
  inferInstanceAs (Decidable (h.Pairwise newestFirst))

/-- Boolean form of `sortedDesc`, for concrete evaluation. -/
def sortedDescB (h : List IHistoryRecord) : Bool :=
  decide (sortedDesc h)

/-- Helper of the edit page; the source comment notes that, records never being
removed from state during editing, the display index is the actual index. -/
def getActualRecordIndex (displayIndex : Int) : Int :=
  displayIndex

/-- The `onAddDocument` callback handed to `useDocumentManager`: guards a
missing history, an out-of-bounds record index and an undefined record, then
appends `url` to `document_urls` of that record (`record.document_urls || []`). -/
def onAddDocument (p : IPatient) (recordIndex : Int) (url : String) : IPatient :=
  match p.history with
  | none => p
  | some h =>
    let actualIndex := getActualRecordIndex recordIndex
    if actualIndex < 0 ∨ (h.length : Int) ≤ actualIndex then p
    else
      match h[actualIndex.toNat]? with
      | none => p
      | some record =>
        { p with history := some (h.set actualIndex.toNat
            { record with document_urls := some ((record.document_urls.getD []) ++ [url]) }) }

/-- The `onRemoveDocument` callback: same record-index guards, then guards a
missing `document_urls` and an out-of-bounds document index, then removes the
entry at `documentIndex` (`filter((_, i) => i !== documentIndex)`). -/
def onRemoveDocument (p : IPatient) (recordIndex documentIndex : Int) : IPatient :=
  match p.history with
  | none => p
  | some h =>
    let actualIndex := getActualRecordIndex recordIndex
    if actualIndex < 0 ∨ (h.length : Int) ≤ actualIndex then p
    else
      match h[actualIndex.toNat]? with
      | none => p
      | some record =>
        match record.document_urls with
        | none => p
        | some urls =>
          if documentIndex < 0 ∨ (urls.length : Int) ≤ documentIndex then p
          else
            { p with history := some (h.set actualIndex.toNat
                { record with document_urls := some (urls.eraseIdx documentIndex.toNat) }) }

/-- The `handleAddRecord` handler: appends the new record to
`prev.history || []` and re-sorts newest first. -/
def handleAddRecord (p : IPatient) (newRecord : IHistoryRecord) : IPatient :=
  { p with history := some (sortHistoryDesc ((p.history.getD []) ++ [newRecord])) }

/-- The `handleUpdateRecord` handler: returns the previous state when history
is absent, otherwise replaces the record at `index` in place
(`updatedHistory[index] = updatedRecord`). No re-sort is performed. In-bounds
replacement is modelled; no claim exercises an out-of-bounds index here. -/
def handleUpdateRecord (p : IPatient) (index : Nat) (updatedRecord : IHistoryRecord) : IPatient :=
  match p.history with
  | none => p
  | some h => { p with history := some (h.set index updatedRecord) }

/-- The `handleUpdateRecordDate` handler: rewrites the timestamp of the record
at `index` (spreading the old record) and re-sorts newest first. -/
def handleUpdateRecordDate (p : IPatient) (index : Nat) (newDate : Int) : IPatient :=
  match p.history with
  | none => p
  | some h =>
    match h[index]? with
    | none => { p with history := some (sortHistoryDesc h) }
    | some r =>
      { p with history := some (sortHistoryDesc (h.set index { r with timestamp := newDate })) }

/-- Modelled from the spec: the tagged pending-operation variants of §3. The
`useDocumentManager` hook owning the log is not among the sources; the UI in
the edit page renders these as types "add", "remove" and "remove_record", the
latter carrying `recordDocuments`, the attachment list captured at marking. -/
inductive PendingOperation where
  | attach (recordIndex : Int) (url : String)
  | detach (recordIndex : Int) (url : String)
  | deleteRecord (recordIndex : Int) (recordDocuments : List String)
deriving DecidableEq, Repr

/-- The `(recordIndex, attachmentRef)` pairs an entry references (§4.2). -/
def opKeys : PendingOperation → List (Int × String)
  | .attach i u => [(i, u)]
  | .detach i u => [(i, u)]
  | .deleteRecord i us => us.map (fun u => (i, u))

/-- Whether an entry references the key `k`. -/
def keyedBy (k : Int × String) (op : PendingOperation) : Bool :=
  decide (k ∈ opKeys op)

/-- Whether two entries reference no common `(recordIndex, attachmentRef)` pair. -/
def keysDisjoint (a b : PendingOperation) : Bool :=
  decide (∀ k ∈ opKeys a, k ∉ opKeys b)

/-- Modelled from the spec: recording a new operation over an existing one for
the same `(recordIndex, attachmentRef)` replaces it rather than stacking
(§4.2 invariant, mandated by §9 as supersession); entries referencing none of
the new keys are kept in order and the new entry is appended. -/
def recordOp (log : List PendingOperation) (op : PendingOperation) : List PendingOperation :=
  (log.filter (fun e => keysDisjoint e op)) ++ [op]

/-- State of one open edit session of the edit page: `buffer` is the `patient`
state, `originalPatient` the deep-copied snapshot taken at load or at the last
successful save (deep copies give value semantics, so plain equality models the
`JSON.stringify` comparison), `pendingOps` the log of `useDocumentManager`.
The session is modelled as loaded: `originalPatient` is non-null. -/
structure Session where
  buffer : IPatient
  originalPatient : IPatient
  pendingOps : List PendingOperation
deriving DecidableEq, Repr

/-- Loading the patient into the edit session (edit page effect on the fetched
patient): history is normalised and sorted newest first, the buffer and the
deep-copied `originalPatient` both hold that value, and the log starts empty. -/
def loadSession (patientFromStore : IPatient) : Session :=
  let patientData : IPatient :=
    { patientFromStore with
      history := some (sortHistoryDesc (patientFromStore.history.getD [])) }
  { buffer := patientData, originalPatient := patientData, pendingOps := [] }

/-- Modelled from the spec: `addDocumentWithRollback` — the file is already
uploaded by the caller (§4.2 `recordAttach` is optimistic), so the manager only
records an `Attach` entry; the buffer link is added through the `onAddDocument`
callback, whose body is in the sources above. No storage delete is issued. -/
def addDocumentWithRollback (s : Session) (recordIndex : Int) (url : String) : Session :=
  { s with
    buffer := onAddDocument s.buffer recordIndex url,
    pendingOps := recordOp s.pendingOps (.attach recordIndex url) }

/-- Modelled from the spec: `removeDocumentWithDeferred` — the link is removed
from the buffer display through the `onRemoveDocument` callback and a `Detach`
entry is recorded; the remote object is not deleted yet (§4.2 `recordDetach`). -/
def removeDocumentWithDeferred (s : Session) (recordIndex documentIndex : Int)
    (url : String) : Session :=
  { s with
    buffer := onRemoveDocument s.buffer recordIndex documentIndex,
    pendingOps := recordOp s.pendingOps (.detach recordIndex url) }

/-- Modelled from the spec: `markRecordForDeletion` — records a `DeleteRecord`
entry capturing the full attachment set at the moment of marking (§4.2
`recordRecordDeletion`); the buffer is not touched and no remote call occurs. -/
def markRecordForDeletion (s : Session) (recordIndex : Int)
    (documentUrls : List String) : Session :=
  { s with pendingOps := recordOp s.pendingOps (.deleteRecord recordIndex documentUrls) }

/-- The `handleAddDocument` handler: delegates to the manager. -/
def handleAddDocument (s : Session) (recordIndex : Int) (url : String) : Session :=
  addDocumentWithRollback s recordIndex url

/-- The URL at `patient.history?.[recordIndex]?.document_urls?.[documentIndex]`,
as `handleRemoveDocument` reads it before acting. -/
def urlAt (p : IPatient) (recordIndex documentIndex : Int) : Option String :=
  match p.history with
  | none => none
  | some h =>
    match listGetInt h recordIndex with
    | none => none
    | some record =>
      match record.document_urls with
      | none => none
      | some urls => listGetInt urls documentIndex

/-- The `handleRemoveDocument` handler: only when the URL exists at that
position does it invoke the deferred removal. -/
def handleRemoveDocument (s : Session) (recordIndex documentIndex : Int) : Session :=
  match urlAt s.buffer recordIndex documentIndex with
  | none => s
  | some url => removeDocumentWithDeferred s recordIndex documentIndex url

/-- The `handleRemoveRecord` handler: reads `patient.history?.[index]`; when
the record exists, marks it for deferred deletion with its document list
(`document_urls || []`). The source comment is explicit that the record is not
removed from state; removal happens only when saving. -/
def handleRemoveRecord (s : Session) (index : Int) : Session :=
  match s.buffer.history with
  | none => s
  | some h =>
    match listGetInt h index with
    | none => s
    | some recordToRemove =>
      markRecordForDeletion s index (recordToRemove.document_urls.getD [])

/-- One user edit of the session, as dispatched by the edit page handlers.
`setName` stands for the `handleChange` field bindings. -/
inductive EditAction where
  | setName (value : String)
  | addRecord (newRecord : IHistoryRecord)
  | updateRecord (index : Nat) (updatedRecord : IHistoryRecord)
  | updateRecordDate (index : Nat) (newDate : Int)
  | removeRecord (index : Int)
  | addDocument (recordIndex : Int) (url : String)
  | removeDocument (recordIndex documentIndex : Int)
deriving DecidableEq, Repr

/-- Dispatch of one edit to the session, following the edit page handlers. -/
def applyAction (s : Session) : EditAction → Session
  | .setName v => { s with buffer := { s.buffer with name := v } }
  | .addRecord r => { s with buffer := handleAddRecord s.buffer r }
  | .updateRecord i r => { s with buffer := handleUpdateRecord s.buffer i r }
  | .updateRecordDate i d => { s with buffer := handleUpdateRecordDate s.buffer i d }
  | .removeRecord i => handleRemoveRecord s i
  | .addDocument i u => handleAddDocument s i u
  | .removeDocument i j => handleRemoveDocument s i j

/-- A whole editing interaction: edits applied in order. -/
def applyActions (s : Session) (actions : List EditAction) : Session :=
  actions.foldl applyAction s

/-- Remote calls observable by the storage and persistence collaborators. -/
inductive RemoteEvent where
  | persistPatient (p : IPatient)
  | deleteFile (url : String) (success : Bool)
deriving DecidableEq, Repr

/-- Remote storage calls issued while applying one edit, before any commit.
Every handler only updates React state and the pending log: `handleAddDocument`
records an already-uploaded file, `handleRemoveDocument` defers the delete,
`handleRemoveRecord` only marks, and the pure handlers never leave the buffer.
None issues a storage delete. -/
def editActionRemoteCalls : EditAction → List RemoteEvent
  | .setName _ => []
  | .addRecord _ => []
  | .updateRecord _ _ => []
  | .updateRecordDate _ _ => []
  | .removeRecord _ => []
  | .addDocument _ _ => []
  | .removeDocument _ _ => []

/-- The unsaved-changes effect of the edit page:
`JSON.stringify(patient) !== JSON.stringify(originalPatient)` (value
inequality) or `documentManager.pendingOperations.length > 0`. -/
def hasUnsavedChanges (s : Session) : Bool :=
  decide (s.buffer ≠ s.originalPatient) || decide (0 < s.pendingOps.length)

/-- Modelled from the spec: `rollbackPendingOperations` (§4.3 rollback). The
log is processed in reverse order; each `Attach` issues a best-effort remote
delete of the now-unwanted uploaded object (failures are collected, never
thrown); `Detach` and `DeleteRecord` entries need no remote call. Afterwards
the log is cleared and the buffer is restored to the known-good snapshot,
which subsumes the per-entry buffer reversals (§4.3 restores the snapshot
defensively even after partial failures). `fails` tells which remote deletes
fail. -/
def rollbackPendingOperations (s : Session) (fails : String → Bool) :
    Session × List RemoteEvent :=
  ({ s with buffer := s.originalPatient, pendingOps := [] },
   s.pendingOps.reverse.filterMap (fun op =>
     match op with
     | .attach _ url => some (RemoteEvent.deleteFile url (!fails url))
     | .detach _ _ => none
     | .deleteRecord _ _ => none))

/-- The `confirmDiscard` handler of the edit page: awaits the rollback, then
resets the buffer to a deep copy of `originalPatient`. The rollback never
throws for individual remote failures (§4.3), so the reset always runs. -/
def confirmDiscard (s : Session) (fails : String → Bool) :
    Session × List RemoteEvent :=
  let r := rollbackPendingOperations s fails
  ({ r.1 with buffer := s.originalPatient }, r.2)

/-- Modelled from the spec: `isRecordMarkedForDeletion` — whether the log
holds a `DeleteRecord` entry for this record index (§6 exposed query). -/
def isRecordMarkedForDeletion (log : List PendingOperation) (index : Int) : Bool :=
  log.any (fun op =>
    match op with
    | .deleteRecord j _ => decide (j = index)
    | _ => false)

/-- Modelled from the spec: the remote calls of the commit sweep
(`commitPendingOperations`, §4.3), in recorded order: `Attach` needs no remote
action, `Detach` deletes its object, `DeleteRecord` deletes every listed
object, continuing past individual failures. -/
def commitEvents : List PendingOperation → (String → Bool) → List RemoteEvent
  | [], _ => []
  | .attach _ _ :: rest, fails => commitEvents rest fails
  | .detach _ url :: rest, fails =>
    RemoteEvent.deleteFile url (!fails url) :: commitEvents rest fails
  | .deleteRecord _ urls :: rest, fails =>
    urls.map (fun u => RemoteEvent.deleteFile u (!fails u)) ++ commitEvents rest fails

/-- Modelled from the spec: the failed identifiers collected by the commit
sweep and surfaced as non-fatal warnings (§4.3), never aborting the sweep. -/
def commitFailed : List PendingOperation → (String → Bool) → List String
  | [], _ => []
  | .attach _ _ :: rest, fails => commitFailed rest fails
  | .detach _ url :: rest, fails =>
    if fails url then url :: commitFailed rest fails else commitFailed rest fails
  | .deleteRecord _ urls :: rest, fails =>
    urls.filter fails ++ commitFailed rest fails

/-- The `patientToSave` computed inside `handleSave`:
`patient.history?.filter((_, index) => !isRecordMarkedForDeletion(index))`,
spread over the current buffer. -/
def patientToSave (s : Session) : IPatient :=
  { s.buffer with
    history := s.buffer.history.map (fun h =>
      (h.enum.filter (fun pr =>
        !isRecordMarkedForDeletion s.pendingOps (pr.1 : Int))).map Prod.snd) }

/-- Result of one save: the session afterwards, the remote calls in issue
order, and the failed delete identifiers of the commit summary. -/
structure SaveResult where
  session : Session
  remoteTrace : List RemoteEvent
  failedDeletes : List String
deriving Repr

/-- The `handleSave` handler of the edit page. Validation first
(`!patient.name || !patient.HN_code` aborts before any remote call; the
identifier presence checks concern ids outside this model). Then, in source
order: the patient with deletion-marked records filtered out is persisted
(`dispatch(updatePatient(...))`), and only afterwards are the pending file
operations committed; finally `originalPatient` becomes the saved copy and the
log is cleared. The persist call is modelled as succeeding — on a persistence
failure the source lands in `catch` before the commit, issuing no deletes. -/
def handleSave (s : Session) (fails : String → Bool) : SaveResult :=
  if s.buffer.name = "" ∨ s.buffer.HN_code = "" then ⟨s, [], []⟩
  else
    let saved := patientToSave s
    ⟨{ s with originalPatient := saved, pendingOps := [] },
     RemoteEvent.persistPatient saved :: commitEvents s.pendingOps fails,
     commitFailed s.pendingOps fails⟩

/-- Whether an event is a storage delete. -/
def isDeleteFile : RemoteEvent → Bool
  | .deleteFile _ _ => true
  | .persistPatient _ => false

/-- The patients written by the persistence layer within a trace. -/
def persistedPatients (trace : List RemoteEvent) : List IPatient :=
  trace.filterMap (fun e =>
    match e with
    | .persistPatient p => some p
    | .deleteFile _ _ => none)

/-- The URLs attached (uploaded and linked) during an editing interaction. -/
def attachedUrls (actions : List EditAction) : List String :=
  actions.filterMap (fun a =>
    match a with
    | .addDocument _ url => some url
    | _ => none)

/-- The URLs of the `Attach` entries of a log. -/
def attachUrlsOf (log : List PendingOperation) : List String :=
  log.filterMap (fun op =>
    match op with
    | .attach _ url => some url
    | _ => none)

/-- Whether an event deletes only within the allowed URL list (persistence
events pass). -/
def deletesOnly (allowed : List String) : RemoteEvent → Bool
  | .deleteFile url _ => decide (url ∈ allowed)
  | .persistPatient _ => true

/-- Result of cascading deletion as `PatientDeleteDialog` displays it. -/
structure DeletionOutcome where
  success : Bool
  filesDeleted : Nat
  filesNotDeleted : Nat
deriving DecidableEq, Repr

/-- Every attachment reference across every history record of the patient
(§4.4 enumeration; the same reduce shape computes `totalDocuments` in
`PatientDeleteDialog`). -/
def allAttachmentUrls (p : IPatient) : List String :=
  (p.history.getD []).flatMap (fun record => record.document_urls.getD [])

/-- Modelled from the spec: the per-file sweep of the Cascading Deletion
Coordinator (§4.4) — a remote delete is issued for each enumerated attachment,
accumulating a success count and a failure count; failures do not stop the
enumeration. -/
def cascadeCounts (urls : List String) (fails : String → Bool) : Nat × Nat :=
  urls.foldl
    (fun acc url => if fails url then (acc.1, acc.2 + 1) else (acc.1 + 1, acc.2))
    (0, 0)

/-- Modelled from the spec: the Cascading Deletion Coordinator behind
`dispatch(deletePatient({clinicId, patientId, forceDelete}))` — the server
route is not among the sources. Decision of §4.4: when `forceDelete` is false
and the failure count is positive, abort before touching the database and
report success false with the accumulated counts; otherwise delete the
database record and report success true. The second component tells whether
the database record was deleted. -/
def cascadeDeletePatient (p : IPatient) (forceDelete : Bool)
    (fails : String → Bool) : DeletionOutcome × Bool :=
  let counts := cascadeCounts (allAttachmentUrls p) fails
  if forceDelete = false ∧ 0 < counts.2 then
    (⟨false, counts.1, counts.2⟩, false)
  else
    (⟨true, counts.1, counts.2⟩, true)

/-- Patient with one record holding one document, for concrete runs. -/
def pW : IPatient :=
  { name := "w", HN_code := "hw", ID_code := "", lastVisit := none,
    history := some [{ timestamp := 0, document_urls := some ["u"] }] }

/-- History record with a given timestamp and no documents. -/
def recT (t : Int) : IHistoryRecord :=
  { timestamp := t, document_urls := none }

/-- Patient whose loaded history is already sorted newest first. -/
def pC4 : IPatient :=
  { name := "n", HN_code := "h", ID_code := "", lastVisit := none,
    history := some [recT 10, recT 5] }

/-- Patient with one record carrying documents a and b. -/
def pC3 : IPatient :=
  { name := "p", HN_code := "h", ID_code := "", lastVisit := none,
    history := some [{ timestamp := 0, document_urls := some ["a", "b"] }] }

/-- Session on `pC3` after the user removes document b (index 1 of record 0),
which records a `Detach` of b without touching storage. -/
def sC3 : Session :=
  applyActions (loadSession pC3) [.removeDocument 0 1]

/-- The patient `handleSave` persists for `sC3`: document b is already gone
from the buffer, and no record is marked for deletion. -/
def pC3saved : IPatient :=
  { name := "p", HN_code := "h", ID_code := "", lastVisit := none,
    history := some [{ timestamp := 0, document_urls := some ["a"] }] }

/-- Patient of the §8 scenario: records with attachments [a, b] and [c]. -/
def pC7 : IPatient :=
  { name := "p", HN_code := "h", ID_code := "", lastVisit := none,
    history := some [{ timestamp := 1, document_urls := some ["a", "b"] },
                     { timestamp := 0, document_urls := some ["c"] }] }

/-- Session on `pC7` after the user detaches document b. -/
def sC7 : Session :=
  applyActions (loadSession pC7) [.removeDocument 0 1]

/-- Sorting the history produces a newest-first sequence. -/
theorem sortHistoryDesc_sorted (h : List IHistoryRecord) :
    sortedDesc (sortHistoryDesc h) :=
  List.sorted_insertionSort newestFirst h

/-- C9: marking a history record for deferred deletion leaves the edit buffer
unchanged — in particular the history sequence keeps its length, order and
record contents, so indices stay stable until save; the record is only
flagged in the pending log, never removed. -/
theorem markRecordDeleted_keeps_buffer (s : Session) (index : Int) :
    (handleRemoveRecord s index).buffer = s.buffer := by
  unfold handleRemoveRecord
  split
  · rfl
  · split
    · rfl
    · rfl

/-- C10: an add-document or remove-document callback invoked with a record
index out of bounds of the history sequence, or a remove-document callback
with a document index out of bounds of the document list of that record,
returns the previous buffer state unchanged — no partial mutation occurs. -/
theorem invalid_index_edits_leave_buffer_unchanged :
    (∀ (p : IPatient) (i : Int) (url : String),
      (i < 0 ∨ ((p.history.getD []).length : Int) ≤ i) → onAddDocument p i url = p) ∧
    (∀ (p : IPatient) (i j : Int),
      (i < 0 ∨ ((p.history.getD []).length : Int) ≤ i) → onRemoveDocument p i j = p) ∧
    (∀ (p : IPatient) (i j : Int) (record : IHistoryRecord),
      listGetInt (p.history.getD []) i = some record →
      (j < 0 ∨ ((record.document_urls.getD []).length : Int) ≤ j) →
      onRemoveDocument p i j = p) := by
  refine ⟨?_, ?_, ?_⟩
  · intro p i url hb
    unfold onAddDocument
    cases hist : p.history with
    | none => rfl
    | some h =>
      rw [hist] at hb
      simp only [Option.getD_some] at hb
      simp only [getActualRecordIndex]
      rw [if_pos hb]
  · intro p i j hb
    unfold onRemoveDocument
    cases hist : p.history with
    | none => rfl
    | some h =>
      rw [hist] at hb
      simp only [Option.getD_some] at hb
      simp only [getActualRecordIndex]
      rw [if_pos hb]
  · intro p i j record hrec hb
    unfold onRemoveDocument
    cases hist : p.history with
    | none => rfl
    | some h =>
      rw [hist] at hrec
      simp only [Option.getD_some] at hrec
      unfold listGetInt at hrec
      by_cases hi : 0 ≤ i
      · rw [if_pos hi] at hrec
        have hlt : i.toNat < h.length := by
          rcases List.getElem?_eq_some_iff.mp hrec with ⟨hlt, _⟩
          exact hlt
        have hcond : ¬(i < 0 ∨ (h.length : Int) ≤ i) := by
          push_neg
          refine ⟨by omega, ?_⟩
          omega
        simp only [getActualRecordIndex]
        rw [if_neg hcond]
        split
        · rfl
        · next record2 heq =>
          rw [hrec] at heq
          have hr2 : record = record2 := Option.some.inj heq
          subst hr2
          split
          · rfl
          · next urls hurls =>
            rw [hurls] at hb
            simp only [Option.getD_some] at hb
            rw [if_pos hb]
      · rw [if_neg hi] at hrec
        exact absurd hrec (by simp)

/-- C10 witness: concrete invalid indices leave the concrete buffer intact. -/
theorem invalid_index_edits_witness :
    onAddDocument pW 5 "x" = pW ∧
    onRemoveDocument pW (-1) 0 = pW ∧
    onRemoveDocument pW 0 7 = pW :=
  ⟨invalid_index_edits_leave_buffer_unchanged.1 pW 5 "x" (by decide),
   invalid_index_edits_leave_buffer_unchanged.2.1 pW (-1) 0 (by decide),
   invalid_index_edits_leave_buffer_unchanged.2.2 pW 0 7
     { timestamp := 0, document_urls := some ["u"] } (by decide) (by decide)⟩

/-- C4 counterexample: on a history sorted newest first, `handleUpdateRecord`
replaces the record at index 1 with one whose timestamp is newer than index 0
and performs no re-sort, so the buffer history is no longer sorted by
timestamp descending after a timestamp change made through `updateRecord`. -/
theorem updateRecord_can_break_descending_order :
    sortedDescB (pC4.history.getD []) = true ∧
    sortedDescB ((handleUpdateRecord pC4 1 (recT 20)).history.getD []) = false := by
  decide

/-- C4 amended: after `addRecord` or `updateRecordTimestamp` the buffer
history is sorted by timestamp descending; `updateRecord` replaces in place
without re-sorting, so the guarantee holds only for the former two. -/
theorem addRecord_updateRecordDate_keep_sorted :
    (∀ (p : IPatient) (newRecord : IHistoryRecord),
      sortedDesc ((handleAddRecord p newRecord).history.getD [])) ∧
    (∀ (p : IPatient) (index : Nat) (newDate : Int),
      sortedDesc ((handleUpdateRecordDate p index newDate).history.getD [])) := by
  constructor
  · intro p r
    simp only [handleAddRecord, Option.getD_some]
    exact sortHistoryDesc_sorted _
  · intro p i d
    unfold handleUpdateRecordDate
    split
    · next hist =>
      rw [hist]
      exact List.Pairwise.nil
    · split
      · exact sortHistoryDesc_sorted _
      · exact sortHistoryDesc_sorted _

/-- No edit handler touches the `originalPatient` snapshot. -/
theorem applyAction_originalPatient (s : Session) (a : EditAction) :
    (applyAction s a).originalPatient = s.originalPatient := by
  cases a with
  | setName v => rfl
  | addRecord r => rfl
  | updateRecord i r => rfl
  | updateRecordDate i d => rfl
  | removeRecord i =>
    show (handleRemoveRecord s i).originalPatient = s.originalPatient
    unfold handleRemoveRecord
    split
    · rfl
    · split
      · rfl
      · rfl
  | addDocument i u => rfl
  | removeDocument i j =>
    show (handleRemoveDocument s i j).originalPatient = s.originalPatient
    unfold handleRemoveDocument
    split
    · rfl
    · rfl

/-- The snapshot taken at load survives any editing interaction. -/
theorem applyActions_originalPatient (actions : List EditAction) :
    ∀ s : Session, (applyActions s actions).originalPatient = s.originalPatient := by
  induction actions with
  | nil => intro s; rfl
  | cons a as ih =>
    intro s
    calc (applyActions (applyAction s a) as).originalPatient
        = (applyAction s a).originalPatient := ih _
      _ = s.originalPatient := applyAction_originalPatient s a

/-- At load, snapshot and buffer hold the same deep-copied value. -/
theorem loadSession_originalPatient (p : IPatient) :
    (loadSession p).originalPatient = (loadSession p).buffer := rfl

/-- C2: after any sequence of recorded operations in one edit session,
discarding restores the buffer to the loaded snapshot exactly, for every
pattern of remote delete failures during the reversal sweep. -/
theorem discard_restores_loaded_snapshot (patientFromStore : IPatient)
    (actions : List EditAction) (fails : String → Bool) :
    (confirmDiscard (applyActions (loadSession patientFromStore) actions) fails).1.buffer
      = (loadSession patientFromStore).buffer := by
  show (applyActions (loadSession patientFromStore) actions).originalPatient
      = (loadSession patientFromStore).buffer
  rw [applyActions_originalPatient, loadSession_originalPatient]

/-- C5: the unsaved-changes flag is set exactly when the buffer differs from
the loaded snapshot or the pending operation log is non-empty. -/
theorem hasUnsavedChanges_iff (patientFromStore : IPatient)
    (actions : List EditAction) :
    hasUnsavedChanges (applyActions (loadSession patientFromStore) actions) = true ↔
      ((applyActions (loadSession patientFromStore) actions).buffer
          ≠ (loadSession patientFromStore).buffer ∨
       (applyActions (loadSession patientFromStore) actions).pendingOps ≠ []) := by
  unfold hasUnsavedChanges
  rw [Bool.or_eq_true, decide_eq_true_iff, decide_eq_true_iff,
      applyActions_originalPatient, List.length_pos, loadSession_originalPatient]

/-- Filtering can only lower a count. -/
theorem countP_filter_le {α : Type} (p q : α → Bool) (l : List α) :
    (l.filter q).countP p ≤ l.countP p := by
  induction l with
  | nil => exact Nat.le_refl _
  | cons x xs ih =>
    by_cases hq : q x = true
    · rw [List.filter_cons_of_pos hq, List.countP_cons, List.countP_cons]
      omega
    · rw [List.filter_cons_of_neg (by simpa using hq), List.countP_cons]
      split
      · omega
      · omega

/-- Recording an operation keeps at most one log entry per key: entries
sharing a key with the new one are superseded, the rest keep their count. -/
theorem recordOp_countP_le_one (log : List PendingOperation)
    (op : PendingOperation) (k : Int × String)
    (h : log.countP (keyedBy k) ≤ 1) :
    (recordOp log op).countP (keyedBy k) ≤ 1 := by
  unfold recordOp
  rw [List.countP_append]
  by_cases hk : k ∈ opKeys op
  · have h0 : (log.filter (fun e => keysDisjoint e op)).countP (keyedBy k) = 0 := by
      rw [List.countP_eq_zero]
      intro e he
      rcases List.mem_filter.mp he with ⟨_, hdisj⟩
      unfold keysDisjoint at hdisj
      rw [decide_eq_true_iff] at hdisj
      unfold keyedBy
      simp only [decide_eq_true_iff]
      intro hke
      exact hdisj k hke hk
    rw [h0]
    have h1 : ([op].countP (keyedBy k)) = 1 := by
      rw [List.countP_cons, List.countP_nil]
      simp [keyedBy, hk]
    omega
  · have h1 : ([op].countP (keyedBy k)) = 0 := by
      rw [List.countP_cons, List.countP_nil]
      simp [keyedBy, hk]
    have h2 := countP_filter_le (keyedBy k) (fun e => keysDisjoint e op) log
    omega

/-- Each edit handler preserves the one-entry-per-key bound of the log. -/
theorem applyAction_countP_le_one (s : Session) (a : EditAction)
    (k : Int × String) (h : s.pendingOps.countP (keyedBy k) ≤ 1) :
    (applyAction s a).pendingOps.countP (keyedBy k) ≤ 1 := by
  cases a with
  | setName v => exact h
  | addRecord r => exact h
  | updateRecord i r => exact h
  | updateRecordDate i d => exact h
  | removeRecord i =>
    show (handleRemoveRecord s i).pendingOps.countP (keyedBy k) ≤ 1
    unfold handleRemoveRecord
    split
    · exact h
    · split
      · exact h
      · exact recordOp_countP_le_one _ _ _ h
  | addDocument i u => exact recordOp_countP_le_one _ _ _ h
  | removeDocument i j =>
    show (handleRemoveDocument s i j).pendingOps.countP (keyedBy k) ≤ 1
    unfold handleRemoveDocument
    split
    · exact h
    · exact recordOp_countP_le_one _ _ _ h

/-- C8: at every point of an edit session the pending operation log holds at
most one entry referencing any given `(recordIndex, attachmentRef)` pair —
recording over an existing pair supersedes it instead of stacking a second,
contradictory entry. -/
theorem pending_log_one_entry_per_reference (patientFromStore : IPatient)
    (actions : List EditAction) (k : Int × String) :
    ((applyActions (loadSession patientFromStore) actions).pendingOps.countP
        (keyedBy k)) ≤ 1 := by
  have step : ∀ (as : List EditAction) (s : Session),
      s.pendingOps.countP (keyedBy k) ≤ 1 →
      (applyActions s as).pendingOps.countP (keyedBy k) ≤ 1 := by
    intro as
    induction as with
    | nil => intro s h; exact h
    | cons a as2 ih =>
      intro s h
      exact ih _ (applyAction_countP_le_one s a k h)
  exact step actions (loadSession patientFromStore) (by simp [loadSession])

/-- Superseding keeps the attach URLs of the log within the previous ones
plus those of the new entry. -/
theorem attachUrlsOf_recordOp (log : List PendingOperation)
    (op : PendingOperation) (u : String)
    (hu : u ∈ attachUrlsOf (recordOp log op)) :
    u ∈ attachUrlsOf log ∨ u ∈ attachUrlsOf [op] := by
  unfold attachUrlsOf at hu ⊢
  unfold recordOp at hu
  rw [List.filterMap_append] at hu
  rcases List.mem_append.mp hu with h1 | h2
  · left
    rcases List.mem_filterMap.mp h1 with ⟨e, he, hfe⟩
    exact List.mem_filterMap.mpr ⟨e, (List.mem_filter.mp he).1, hfe⟩
  · right
    exact h2

/-- A URL among the attach entries after one edit either was there before or
is the URL of an add-document edit. -/
theorem applyAction_attachUrls (s : Session) (a : EditAction) (u : String)
    (hu : u ∈ attachUrlsOf (applyAction s a).pendingOps) :
    u ∈ attachUrlsOf s.pendingOps ∨ (∃ i : Int, a = .addDocument i u) := by
  cases a with
  | setName v => exact Or.inl hu
  | addRecord r => exact Or.inl hu
  | updateRecord i r => exact Or.inl hu
  | updateRecordDate i d => exact Or.inl hu
  | addDocument i url =>
    have hu2 : u ∈ attachUrlsOf (recordOp s.pendingOps (.attach i url)) := hu
    rcases attachUrlsOf_recordOp _ _ _ hu2 with h | h
    · exact Or.inl h
    · right
      refine ⟨i, ?_⟩
      have hconc : attachUrlsOf [PendingOperation.attach i url] = [url] := rfl
      rw [hconc] at h
      rw [List.mem_singleton.mp h]
  | removeRecord i =>
    have hu2 : u ∈ attachUrlsOf (handleRemoveRecord s i).pendingOps := hu
    unfold handleRemoveRecord at hu2
    split at hu2
    · exact Or.inl hu2
    · split at hu2
      · exact Or.inl hu2
      · unfold markRecordForDeletion at hu2
        rcases attachUrlsOf_recordOp _ _ _ hu2 with h | h
        · exact Or.inl h
        · exact absurd h (by simp [attachUrlsOf])
  | removeDocument i j =>
    have hu2 : u ∈ attachUrlsOf (handleRemoveDocument s i j).pendingOps := hu
    unfold handleRemoveDocument at hu2
    split at hu2
    · exact Or.inl hu2
    · unfold removeDocumentWithDeferred at hu2
      rcases attachUrlsOf_recordOp _ _ _ hu2 with h | h
      · exact Or.inl h
      · exact absurd h (by simp [attachUrlsOf])

/-- Across a whole interaction, every attach entry of the log carries a URL
attached by one of the edits. -/
theorem applyActions_attachUrls (actions : List EditAction) :
    ∀ (s : Session) (u : String),
      u ∈ attachUrlsOf (applyActions s actions).pendingOps →
      u ∈ attachUrlsOf s.pendingOps ∨ u ∈ attachedUrls actions := by
  induction actions with
  | nil =>
    intro s u h
    exact Or.inl h
  | cons a as ih =>
    intro s u h
    rcases ih (applyAction s a) u h with h1 | h2
    · rcases applyAction_attachUrls s a u h1 with h3 | ⟨i, rfl⟩
      · exact Or.inl h3
      · right
        unfold attachedUrls
        rw [List.filterMap_cons]
        exact List.mem_cons_self _ _
    · right
      unfold attachedUrls at h2 ⊢
      rw [List.filterMap_cons]
      cases a <;> first | exact h2 | exact List.mem_cons_of_mem _ h2

/-- C6: during an edit session no detach and no record-deletion issues a
storage delete before commit: applying edits issues no remote calls at all,
and every remote delete of a discarded session reverses an `Attach` (an
object uploaded during the session) — an object referenced only by `Detach`
or `DeleteRecord` entries is never deleted. -/
theorem no_storage_deletes_before_commit (patientFromStore : IPatient)
    (actions : List EditAction) (fails : String → Bool) :
    actions.flatMap editActionRemoteCalls = [] ∧
    ((confirmDiscard (applyActions (loadSession patientFromStore) actions) fails).2.all
        (deletesOnly (attachedUrls actions)) = true) := by
  constructor
  · induction actions with
    | nil => rfl
    | cons a as ih =>
      rw [List.flatMap_cons]
      cases a <;> simpa [editActionRemoteCalls] using ih
  · rw [List.all_eq_true]
    intro e he
    have he2 : e ∈ (rollbackPendingOperations
        (applyActions (loadSession patientFromStore) actions) fails).2 := he
    unfold rollbackPendingOperations at he2
    rcases List.mem_filterMap.mp he2 with ⟨op, hop, hfe⟩
    cases op with
    | attach i url =>
      simp only [Option.some.injEq] at hfe
      subst hfe
      have hmem : url ∈ attachUrlsOf
          (applyActions (loadSession patientFromStore) actions).pendingOps :=
        List.mem_filterMap.mpr ⟨.attach i url, List.mem_reverse.mp hop, rfl⟩
      rcases applyActions_attachUrls actions _ url hmem with h | h
      · have hnil : attachUrlsOf (loadSession patientFromStore).pendingOps = [] := rfl
        rw [hnil] at h
        exact absurd h (List.not_mem_nil url)
      · simp [deletesOnly, h]
    | detach i url => exact absurd hfe (by simp)
    | deleteRecord i urls => exact absurd hfe (by simp)

/-- Every remote call of the commit sweep is a file delete. -/
theorem commitEvents_all_deletes (log : List PendingOperation)
    (fails : String → Bool) :
    (commitEvents log fails).all isDeleteFile = true := by
  induction log with
  | nil => rfl
  | cons op rest ih =>
    cases op with
    | attach i u =>
      show (commitEvents rest fails).all isDeleteFile = true
      exact ih
    | detach i u =>
      show (RemoteEvent.deleteFile u (!fails u) :: commitEvents rest fails).all
          isDeleteFile = true
      rw [List.all_cons, ih]
      rfl
    | deleteRecord i us =>
      show ((us.map fun u => RemoteEvent.deleteFile u (!fails u))
          ++ commitEvents rest fails).all isDeleteFile = true
      rw [List.all_append, ih]
      have hmap : (us.map fun u => RemoteEvent.deleteFile u (!fails u)).all
          isDeleteFile = true := by
        rw [List.all_eq_true]
        intro e hee
        rcases List.mem_map.mp hee with ⟨u, _, rfl⟩
        rfl
      rw [hmap]
      rfl

/-- C3 counterexample: in a concrete session with one pending `Detach` of
document b, the save trace persists the buffer first and issues the remote
delete of b afterwards — the log is not applied before the persistence call. -/
theorem save_persists_before_log_is_applied_cex :
    (handleSave sC3 (fun _ => false)).remoteTrace
      = [RemoteEvent.persistPatient pC3saved, RemoteEvent.deleteFile "b" true] := by
  decide

/-- C3 amended: on every save that passes validation, the persistence call
comes first and everything after it is a storage delete entailed by the
pending log; a save failing validation issues no remote call at all. -/
theorem save_persists_then_commits (s : Session) (fails : String → Bool) :
    (handleSave s fails).remoteTrace = [] ∨
    ((handleSave s fails).remoteTrace.head? =
        some (RemoteEvent.persistPatient (patientToSave s)) ∧
     (handleSave s fails).remoteTrace.tail.all isDeleteFile = true) := by
  unfold handleSave
  split
  · left
    rfl
  · right
    exact ⟨rfl, commitEvents_all_deletes _ _⟩

/-- A trace of file deletes persists nothing. -/
theorem persistedPatients_eq_nil_of_all_deletes (tr : List RemoteEvent)
    (h : tr.all isDeleteFile = true) : persistedPatients tr = [] := by
  induction tr with
  | nil => rfl
  | cons e rest ih =>
    rw [List.all_cons, Bool.and_eq_true] at h
    cases e with
    | persistPatient p => exact absurd h.1 (by simp [isDeleteFile])
    | deleteFile u ok =>
      have hred : persistedPatients (RemoteEvent.deleteFile u ok :: rest)
          = persistedPatients rest := rfl
      rw [hred]
      exact ih h.2

/-- The commit summary lists exactly the URLs whose remote delete failed
during the commit sweep. -/
theorem mem_commitFailed_iff (log : List PendingOperation)
    (fails : String → Bool) (url : String) :
    url ∈ commitFailed log fails ↔
      RemoteEvent.deleteFile url false ∈ commitEvents log fails := by
  induction log with
  | nil => simp [commitFailed, commitEvents]
  | cons op rest ih =>
    cases op with
    | attach i u =>
      show url ∈ commitFailed rest fails ↔
          RemoteEvent.deleteFile url false ∈ commitEvents rest fails
      exact ih
    | detach i u =>
      show (url ∈ if fails u then u :: commitFailed rest fails
            else commitFailed rest fails) ↔
          RemoteEvent.deleteFile url false ∈
            RemoteEvent.deleteFile u (!fails u) :: commitEvents rest fails
      by_cases hf : fails u = true
      · rw [if_pos hf, hf]
        simp [ih]
      · have hf2 : fails u = false := by
          cases hfu : fails u
          · rfl
          · exact absurd hfu hf
        rw [if_neg (by rw [hf2]; exact Bool.false_ne_true), hf2]
        simp [ih]
    | deleteRecord i us =>
      show url ∈ us.filter fails ++ commitFailed rest fails ↔
          RemoteEvent.deleteFile url false ∈
            (us.map fun u => RemoteEvent.deleteFile u (!fails u))
              ++ commitEvents rest fails
      rw [List.mem_append, List.mem_append]
      constructor
      · intro h
        rcases h with h | h
        · left
          rcases List.mem_filter.mp h with ⟨hmem, hfail⟩
          refine List.mem_map.mpr ⟨url, hmem, ?_⟩
          show RemoteEvent.deleteFile url (!fails url) = RemoteEvent.deleteFile url false
          rw [hfail]
          rfl
        · exact Or.inr (ih.mp h)
      · intro h
        rcases h with h | h
        · left
          rcases List.mem_map.mp h with ⟨u, hmem, heq⟩
          rcases RemoteEvent.deleteFile.inj heq with ⟨hu, hbf⟩
          subst hu
          refine List.mem_filter.mpr ⟨hmem, ?_⟩
          simpa using hbf
        · exact Or.inr (ih.mpr h)

/-- C7 counterexample: in the §8 scenario the user detaches document b, then
saves while the remote delete of b fails. The delete failure is in the trace
and in the reported summary, yet b is absent from the persisted copy — the
failing `Detach` does not leave its reference present in the saved record,
because the buffer was filtered and persisted before the commit sweep ran. -/
theorem failed_detach_ref_dropped_from_persisted_cex :
    RemoteEvent.deleteFile "b" false ∈
      (handleSave sC7 (fun u => u == "b")).remoteTrace ∧
    "b" ∈ (handleSave sC7 (fun u => u == "b")).failedDeletes ∧
    decide ("b" ∈ allAttachmentUrls (patientToSave sC7)) = false := by
  decide

/-- C7 amended: on every save, the persisted copy is the same for any two
failure patterns (detached refs stay absent and deletion-marked records stay
removed regardless of remote outcomes); every failed delete is reported in
the returned summary, never silently dropped; and every persisted record
originates at an unmarked position of the buffer history. -/
theorem save_failures_reported_marked_records_removed (s : Session)
    (f1 f2 : String → Bool) :
    persistedPatients (handleSave s f1).remoteTrace
      = persistedPatients (handleSave s f2).remoteTrace ∧
    (∀ url : String, url ∈ (handleSave s f1).failedDeletes ↔
        RemoteEvent.deleteFile url false ∈ (handleSave s f1).remoteTrace) ∧
    ((patientToSave s).history.getD []).all (fun record =>
        (s.buffer.history.getD []).enum.any (fun pr =>
          !isRecordMarkedForDeletion s.pendingOps (pr.1 : Int)
            && decide (pr.2 = record))) = true := by
  refine ⟨?_, ?_, ?_⟩
  · unfold handleSave
    split
    · rfl
    · have h1 : persistedPatients (RemoteEvent.persistPatient (patientToSave s)
          :: commitEvents s.pendingOps f1)
          = patientToSave s :: persistedPatients (commitEvents s.pendingOps f1) := rfl
      have h2 : persistedPatients (RemoteEvent.persistPatient (patientToSave s)
          :: commitEvents s.pendingOps f2)
          = patientToSave s :: persistedPatients (commitEvents s.pendingOps f2) := rfl
      show persistedPatients (RemoteEvent.persistPatient (patientToSave s)
          :: commitEvents s.pendingOps f1)
          = persistedPatients (RemoteEvent.persistPatient (patientToSave s)
          :: commitEvents s.pendingOps f2)
      rw [h1, h2,
        persistedPatients_eq_nil_of_all_deletes _ (commitEvents_all_deletes s.pendingOps f1),
        persistedPatients_eq_nil_of_all_deletes _ (commitEvents_all_deletes s.pendingOps f2)]
  · intro url
    unfold handleSave
    split
    · simp
    · show url ∈ commitFailed s.pendingOps f1 ↔
          RemoteEvent.deleteFile url false ∈
            RemoteEvent.persistPatient (patientToSave s) :: commitEvents s.pendingOps f1
      rw [List.mem_cons]
      constructor
      · intro h
        exact Or.inr ((mem_commitFailed_iff s.pendingOps f1 url).mp h)
      · intro h
        rcases h with h | h
        · exact absurd h (by simp)
        · exact (mem_commitFailed_iff s.pendingOps f1 url).mpr h
  · rw [List.all_eq_true]
    intro record hrec
    rw [List.any_eq_true]
    unfold patientToSave at hrec
    cases hist : s.buffer.history with
    | none =>
      rw [hist] at hrec
      exact absurd hrec (List.not_mem_nil record)
    | some h =>
      rw [hist] at hrec
      simp only [Option.map_some', Option.getD_some] at hrec
      rcases List.mem_map.mp hrec with ⟨pr, hpr, heq⟩
      rcases List.mem_filter.mp hpr with ⟨henum, hmark⟩
      refine ⟨pr, ?_, ?_⟩
      · simpa using henum
      · rw [Bool.and_eq_true]
        refine ⟨hmark, ?_⟩
        rw [decide_eq_true_iff]
        exact heq

/-- The fold of the deletion sweep counts successes and failures. -/
theorem cascadeCounts_eq (fails : String → Bool) (urls : List String) :
    ∀ a b : Nat,
      urls.foldl
        (fun acc url => if fails url then (acc.1, acc.2 + 1) else (acc.1 + 1, acc.2))
        (a, b)
      = (a + urls.countP (fun u => !fails u), b + urls.countP fails) := by
  induction urls with
  | nil =>
    intro a b
    simp
  | cons u us ih =>
    intro a b
    rw [List.foldl_cons]
    by_cases hu : fails u = true
    · rw [if_pos hu]
      rw [ih]
      simp [List.countP_cons, hu, Prod.ext_iff]
      omega
    · have hu2 : fails u = false := by
        cases hfu : fails u
        · rfl
        · exact absurd hfu hu
      rw [if_neg (by rw [hu2]; exact Bool.false_ne_true)]
      rw [ih]
      simp [List.countP_cons, hu2, Prod.ext_iff]
      omega

/-- C1: the database record is deleted exactly when `forceDelete` is set or
no remote attachment delete failed; the reported outcome carries the
accumulated success and failure counts, and its success flag coincides with
the database deletion — in particular, with `forceDelete` false and at least
one failure, the record is left intact and success is false. -/
theorem cascade_deletion_decision (p : IPatient) (forceDelete : Bool)
    (fails : String → Bool) :
    ((cascadeDeletePatient p forceDelete fails).2 = true ↔
      (forceDelete = true ∨ (allAttachmentUrls p).countP fails = 0)) ∧
    (cascadeDeletePatient p forceDelete fails).1.success
      = (cascadeDeletePatient p forceDelete fails).2 ∧
    (cascadeDeletePatient p forceDelete fails).1.filesDeleted
      = (allAttachmentUrls p).countP (fun u => !fails u) ∧
    (cascadeDeletePatient p forceDelete fails).1.filesNotDeleted
      = (allAttachmentUrls p).countP fails := by
  have hc : cascadeCounts (allAttachmentUrls p) fails
      = ((allAttachmentUrls p).countP (fun u => !fails u),
         (allAttachmentUrls p).countP fails) := by
    unfold cascadeCounts
    simpa using cascadeCounts_eq fails (allAttachmentUrls p) 0 0
  unfold cascadeDeletePatient
  rw [hc]
  cases forceDelete with
  | true =>
    rw [if_neg (by simp)]
    exact ⟨by simp, rfl, rfl, rfl⟩
  | false =>
    by_cases h0 : (allAttachmentUrls p).countP fails = 0
    · rw [if_neg (by simp [h0])]
      exact ⟨by simp [h0], rfl, rfl, rfl⟩
    · rw [if_pos ⟨rfl, Nat.pos_of_ne_zero h0⟩]
      refine ⟨?_, rfl, rfl, rfl⟩
      simp [h0]

end ClinicManagement
